import Mathlib

/-!
Verification of the Huffman compressor in this repository (files
`huffman.py` and `nodes.py`) against its natural-language specification.

Shallow embedding conventions used throughout this file:

* Python `bytes`/`bytearray` values are `List Nat` with entries 0..255.
* Bit strings (Python strings over the characters 0 and 1, produced by
  `byte_to_bits` / consumed by `bits_to_byte` and used as Huffman codes)
  are `List Nat` with entries 0 and 1, in the same order as the string.
* A Python `dict` is an insertion-ordered association list.  Writing to an
  existing key replaces the value in place (keeping the position); writing
  a fresh key appends at the end.  This ordering faithfulness matters: the
  priority queue in `nodes.py` stores its entries in a dict keyed by the
  integer weight, and iteration order of `dict` objects is insertion order.
* `HuffmanNode` instances and the Python value `None` together become the
  inductive `HTree`; the constructor `HTree.nil` is Python `None`.
* Code that can raise (TypeError, NameError, IndexError, PriorityQueueError)
  or fail to terminate is modelled with `Option`; `none` means the Python
  call does not return normally.
* Unbounded recursion whose termination Lean cannot see structurally
  (e.g. `generate_tree_general`, which recurses through indices stored in
  the node records) takes an explicit fuel argument; `some` at a given fuel
  means the Python call returns that value.
-/

/-! ## Python dict model -/

/-- Python `d[k] = v` on an insertion-ordered dict: replace in place when the
key is present, append otherwise. -/
def dictInsert {α β : Type} [BEq α] (d : List (α × β)) (k : α) (v : β) :
    List (α × β) :=
  if d.any (fun p => p.1 == k) then
    d.map (fun p => if p.1 == k then (k, v) else p)
  else
    d ++ [(k, v)]

/-- Python `d[k]` / `k in d`: the value stored under `k`, if any. -/
def dictLookup {α β : Type} [BEq α] (d : List (α × β)) (k : α) : Option β :=
  (d.find? (fun p => p.1 == k)).map (fun p => p.2)

theorem dictLookup_map_update_ne {α β : Type} [BEq α] [LawfulBEq α]
    (d : List (α × β)) (k a : α) (v : β) (hak : ¬ a = k) :
    dictLookup (d.map (fun p => if p.1 == k then (k, v) else p)) a =
      dictLookup d a := by
  have hka : ¬ k = a := fun h => hak h.symm
  induction d with
  | nil => rfl
  | cons q d ih =>
    by_cases hq : q.1 = k
    · simp only [dictLookup, List.map_cons] at ih ⊢
      rw [if_pos (by simpa using hq)]
      rw [List.find?_cons_of_neg _ (by simp [hka])]
      rw [List.find?_cons_of_neg _ (by simp [hq, hka])]
      exact ih
    · simp only [dictLookup, List.map_cons] at ih ⊢
      rw [if_neg (by simpa using hq)]
      by_cases hqa : q.1 = a
      · rw [List.find?_cons_of_pos _ (by simpa using hqa),
          List.find?_cons_of_pos _ (by simpa using hqa)]
      · rw [List.find?_cons_of_neg _ (by simpa using hqa),
          List.find?_cons_of_neg _ (by simpa using hqa)]
        exact ih

theorem dictLookup_map_update_eq {α β : Type} [BEq α] [LawfulBEq α]
    (d : List (α × β)) (k : α) (v : β)
    (h : d.any (fun p => p.1 == k) = true) :
    dictLookup (d.map (fun p => if p.1 == k then (k, v) else p)) k =
      some v := by
  induction d with
  | nil => simp at h
  | cons q d ih =>
    by_cases hq : q.1 = k
    · simp only [dictLookup, List.map_cons]
      rw [if_pos (by simpa using hq)]
      rw [List.find?_cons_of_pos _ (by simp)]
      rfl
    · have h2 : d.any (fun p => p.1 == k) = true := by
        revert h
        simp [List.any_cons, hq]
      simp only [dictLookup, List.map_cons] at ih ⊢
      rw [if_neg (by simpa using hq)]
      rw [List.find?_cons_of_neg _ (by simpa using hq)]
      exact ih h2

theorem dictLookup_append_single_eq {α β : Type} [BEq α] [LawfulBEq α]
    (d : List (α × β)) (k : α) (v : β)
    (h : d.any (fun p => p.1 == k) = false) :
    dictLookup (d ++ [(k, v)]) k = some v := by
  induction d with
  | nil =>
    simp only [dictLookup, List.nil_append]
    rw [List.find?_cons_of_pos _ (by simp)]
    rfl
  | cons q d ih =>
    have hq : ¬ q.1 = k := by
      intro hqk
      simp [List.any_cons, hqk] at h
    have h2 : d.any (fun p => p.1 == k) = false := by
      revert h
      simp [List.any_cons, hq]
    simp only [dictLookup, List.cons_append] at ih ⊢
    rw [List.find?_cons_of_neg _ (by simpa using hq)]
    exact ih h2

theorem dictLookup_append_single_ne {α β : Type} [BEq α] [LawfulBEq α]
    (d : List (α × β)) (k a : α) (v : β) (hak : ¬ a = k) :
    dictLookup (d ++ [(k, v)]) a = dictLookup d a := by
  have hka : ¬ k = a := fun h => hak h.symm
  induction d with
  | nil =>
    simp only [dictLookup, List.nil_append]
    rw [List.find?_cons_of_neg _ (by simp [hka])]
  | cons q d ih =>
    by_cases hqa : q.1 = a
    · simp only [dictLookup, List.cons_append]
      rw [List.find?_cons_of_pos _ (by simpa using hqa),
        List.find?_cons_of_pos _ (by simpa using hqa)]
    · simp only [dictLookup, List.cons_append] at ih ⊢
      rw [List.find?_cons_of_neg _ (by simpa using hqa),
        List.find?_cons_of_neg _ (by simpa using hqa)]
      exact ih

theorem dictLookup_dictInsert {α β : Type} [BEq α] [LawfulBEq α]
    (d : List (α × β)) (k a : α) (v : β) :
    dictLookup (dictInsert d k v) a =
      if a == k then some v else dictLookup d a := by
  unfold dictInsert
  by_cases hany : d.any (fun p => p.1 == k) = true
  · rw [if_pos hany]
    by_cases hak : a = k
    · subst hak
      simp [dictLookup_map_update_eq d a v hany]
    · simp [hak, dictLookup_map_update_ne d k a v hak]
  · rw [if_neg hany]
    by_cases hak : a = k
    · subst hak
      have hfalse : (d.any fun p => p.1 == a) = false :=
        Bool.eq_false_iff.mpr hany
      simp [dictLookup_append_single_eq d a v hfalse]
    · simp [hak, dictLookup_append_single_ne d k a v hak]

theorem mem_dictInsert {α β : Type} [BEq α] (d : List (α × β)) (k : α)
    (v : β) (e : α × β) (he : e ∈ dictInsert d k v) : e ∈ d ∨ e = (k, v) := by
  unfold dictInsert at he
  by_cases h : d.any (fun p => p.1 == k)
  · rw [if_pos h] at he
    obtain ⟨p, hp, hfe⟩ := List.mem_map.mp he
    by_cases hk : (p.1 == k) = true
    · right
      rw [if_pos hk] at hfe
      exact hfe.symm
    · left
      rw [if_neg hk] at hfe
      exact hfe ▸ hp
  · rw [if_neg h] at he
    rcases List.mem_append.mp he with h1 | h2
    · exact Or.inl h1
    · exact Or.inr (by simpa using h2)

/-! ## Byte and bit helpers (`huffman.py`, lines 10-44) -/

/-- `get_bit(byte, bit_num)`: bit number `bit_num` from the right,
`(byte & (1 << bit_num)) >> bit_num`. -/
def get_bit (byte bit_num : Nat) : Nat :=
  (byte &&& (1 <<< bit_num)) >>> bit_num

/-- `byte_to_bits(byte)`: the eight bits of `byte`, most significant first
(Python iterates `range(7, -1, -1)`). -/
def byte_to_bits (byte : Nat) : List Nat :=
  (List.range 8).reverse.map (fun bit_num => get_bit byte bit_num)

/-- `bits_to_byte(bits)`: `sum(int(bits[pos]) * (1 << (7 - pos)))` over the
positions of `bits`; a string shorter than 8 bits is thereby padded on the
right with zeros.  (For a string longer than 8 bits the Python shift count
`7 - pos` would go negative and raise; every call site passes at most 8
bits, and `Nat` subtraction truncates at 0 which is never exercised.) -/
def bits_to_byte (bits : List Nat) : Nat :=
  ((List.range bits.length).map
    (fun pos => bits.getD pos 0 * (1 <<< (7 - pos)))).sum

set_option maxRecDepth 10000 in
/-- C10: the bit-string conversion helpers are mutually inverse on whole
bytes.  For every byte value `b` in `[0, 255]`, `byte_to_bits b` is a list
of exactly 8 entries, each 0 or 1, and `bits_to_byte (byte_to_bits b) = b`. -/
theorem byte_bits_roundtrip :
    ∀ b : Nat, b < 256 →
      (byte_to_bits b).length = 8 ∧
      (∀ x ∈ byte_to_bits b, x = 0 ∨ x = 1) ∧
      bits_to_byte (byte_to_bits b) = b := by
  decide

/-- Witness for C10 at the concrete byte 14 from the doctest:
`byte_to_bits(14)` is the 8-bit string 00001110 and converts back to 14. -/
theorem byte_bits_roundtrip_witness :
    (byte_to_bits 14).length = 8 ∧
    (∀ x ∈ byte_to_bits 14, x = 0 ∨ x = 1) ∧
    bits_to_byte (byte_to_bits 14) = 14 :=
  byte_bits_roundtrip 14 (by decide)

/-! ## HuffmanNode (`nodes.py`, lines 1-59) -/

/-- A `HuffmanNode` or the Python value `None`.  `HTree.nil` is `None`;
`HTree.node symbol number left right` is a `HuffmanNode` with the given
`symbol`, `number`, `left` and `right` attributes (each of `symbol` and
`number` is an int or `None`; the constructor initialises `number` to
`None`, and `number_nodes` later assigns it). -/
inductive HTree where
  | nil : HTree
  | node (symbol : Option Nat) (number : Option Nat) (left right : HTree) :
      HTree
deriving DecidableEq, Repr

/-- `HuffmanNode.is_leaf`: `not self.left and not self.right`.  (Python
never invokes the method on `None`; the `nil` case is arbitrary.) -/
def HTree.is_leaf : HTree → Bool
  | .nil => true
  | .node _ _ l r => l == .nil && r == .nil

/-- `HuffmanNode.__eq__`: structural equality on `symbol`, `left`, `right`;
the `number` attribute is NOT compared. -/
def pyEq : HTree → HTree → Bool
  | .nil, .nil => true
  | .node s1 _ l1 r1, .node s2 _ l2 r2 => s1 == s2 && pyEq l1 l2 && pyEq r1 r2
  | _, _ => false

/-! ## PriorityQueue (`nodes.py`, lines 88-172).  The queue stores its
entries in `self._items`, a Python dict whose KEYS are the integer weights
and whose values are the nodes. -/

/-- The `_items` dict of a `PriorityQueue`: weight-keyed, insertion
ordered. -/
abbrev PriorityQueue := List (Int × HTree)

/-- `PriorityQueue.insert(key, val)`: `self._items[key] = val`.  The only
guard is `isinstance(key, int)`, which every integer key (negative keys
included) passes, so for the integer-keyed queue modelled here the
`PriorityQueueError` branch is unreachable and the dict write always
happens.  A second insert with an already-present weight OVERWRITES the
stored node. -/
def PriorityQueue.insert (items : PriorityQueue) (key : Int) (val : HTree) :
    PriorityQueue :=
  dictInsert items key val

/-- `PriorityQueue.extractMin()`: raise on the empty queue (`none`),
otherwise take `min(self._items.keys())`, return the `(key, value)` pair
and `del` that key from the dict. -/
def PriorityQueue.extractMin (items : PriorityQueue) :
    Option ((Int × HTree) × PriorityQueue) :=
  match (items.map Prod.fst).min? with
  | none => none
  | some mini_key =>
    match items.find? (fun p => p.1 == mini_key) with
    | some p => some ((mini_key, p.2), items.eraseP (fun q => q.1 == mini_key))
    | none => none

/-- `PriorityQueue.is_empty()`: `self._items == {}`. -/
def PriorityQueue.is_empty (items : PriorityQueue) : Bool :=
  items == []

/-- C2 (code_bug evaluation): inserting two entries with the same weight 5
keeps only the second.  A single `extractMin` returns the second node and
leaves the queue EMPTY: the entry `(5, HuffmanNode(1))` was silently
discarded by the weight-keyed dict, violating the contract that ties in
weight must not cause loss of an entry. -/
theorem pq_equal_weight_entry_lost :
    PriorityQueue.extractMin
        (PriorityQueue.insert
          (PriorityQueue.insert [] 5 (HTree.node (some 1) none .nil .nil))
          5 (HTree.node (some 2) none .nil .nil)) =
      some ((5, HTree.node (some 2) none .nil .nil), []) := by
  rfl

/-- C9 counterexample: `insert(-1, n)` does NOT fail; the entry is added.
The only check in `insert` is `isinstance(key, int)`, which a negative
integer passes, so the claim that a negative weight is rejected is false. -/
theorem pq_insert_negative_succeeds :
    PriorityQueue.insert [] (-1) (HTree.node (some 0) none .nil .nil) =
      [((-1 : Int), HTree.node (some 0) none .nil .nil)] := by
  rfl

/-- C9 amended: for every weight `w` (negative weights included) and node
`n`, `insert(w, n)` succeeds and stores the entry: afterwards the queue
holds `n` under key `w`.  `insert` rejects only non-integer keys. -/
theorem pq_insert_any_int_weight (items : PriorityQueue) (w : Int)
    (n : HTree) (hneg : w < 0) :
    dictLookup (PriorityQueue.insert items w n) w = some n := by
  unfold PriorityQueue.insert
  rw [dictLookup_dictInsert]
  simp

/-- Witness for the amended C9 at weight `-1` on the empty queue. -/
theorem pq_insert_any_int_weight_witness :
    dictLookup (PriorityQueue.insert [] (-1)
      (HTree.node (some 7) none .nil .nil)) (-1) =
      some (HTree.node (some 7) none .nil .nil) :=
  pq_insert_any_int_weight [] (-1) (HTree.node (some 7) none .nil .nil)
    (by decide)

/-! ## Compression functions (`huffman.py`, lines 51-368) -/

/-- `make_freq_dict(text)`: count occurrences of each byte; a fresh byte is
appended to the dict with count 1, a seen byte has its count bumped in
place. -/
def make_freq_dict (text : List Nat) : List (Nat × Nat) :=
  text.foldl
    (fun d ele =>
      match dictLookup d ele with
      | none => dictInsert d ele 1
      | some c => dictInsert d ele (c + 1))
    []

/-- `helper_huffman_tree(freq_dict)`: seed a `PriorityQueue` with one leaf
`HuffmanNode(ele)` per dict entry, keyed by its frequency, in dict
iteration (= insertion) order. -/
def helper_huffman_tree (freq_dict : List (Nat × Nat)) : PriorityQueue :=
  freq_dict.foldl
    (fun p kv => PriorityQueue.insert p (kv.2 : Int)
      (HTree.node (some kv.1) none .nil .nil))
    []

/-- The `while match:` loop of `huffman_tree`: extract the minimum; if the
queue is then empty that node is the root, otherwise extract a second
minimum, merge the two under a fresh internal node (symbol `None`) whose
weight is the sum, insert it back, and repeat.  Each iteration shrinks the
dict, so fuel equal to the initial dict size suffices; `none` models the
`PriorityQueueError` raised on extraction from an empty queue (empty
`freq_dict`) or fuel exhaustion. -/
def huffman_loop : Nat → PriorityQueue → Option HTree
  | 0, _ => none
  | fuel + 1, items =>
    match PriorityQueue.extractMin items with
    | none => none
    | some (n1, p1) =>
      if PriorityQueue.is_empty p1 then some n1.2
      else
        match PriorityQueue.extractMin p1 with
        | none => none
        | some (n2, p2) =>
          huffman_loop fuel
            (PriorityQueue.insert p2 (n1.1 + n2.1)
              (HTree.node none none n1.2 n2.2))

/-- `huffman_tree(freq_dict)`: run the merge loop on the seeded queue. -/
def huffman_tree (freq_dict : List (Nat × Nat)) : Option HTree :=
  huffman_loop (helper_huffman_tree freq_dict).length
    (helper_huffman_tree freq_dict)

/-- The `if tree.left: if tree.left.symbol != None: dic[...] = s + "0"`
recording step of the `get_codes` helper (and its mirror image for the
right child): when the child exists and carries a symbol, write the
accumulated string under that symbol; otherwise leave the dict alone. -/
def gc_record (dic : List (Nat × List Nat)) (child : HTree) (s : List Nat) :
    List (Nat × List Nat) :=
  match child with
  | .node (some sym) _ _ _ => dictInsert dic sym s
  | _ => dic

/-- The inner `helper(tree, s)` of `get_codes`, with the mutable outer dict
`dic` threaded through.  It returns immediately on `None` or on a childless
node; otherwise it records `s + "0"` for the left child whenever that child
exists and has a non-`None` symbol, recurses left, then does the same on
the right with `s + "1"`. -/
def gc_helper : HTree → List Nat → List (Nat × List Nat) → List (Nat × List Nat)
  | .nil, _, dic => dic
  | .node _ _ l r, s, dic =>
    if l = .nil ∧ r = .nil then dic
    else
      gc_helper r (s ++ [1])
        (gc_record (gc_helper l (s ++ [0]) (gc_record dic l (s ++ [0])))
          r (s ++ [1]))

/-- `get_codes(tree)`: the symbol-to-bitstring dict built by the helper
starting from the empty accumulated string. -/
def get_codes (tree : HTree) : List (Nat × List Nat) :=
  gc_helper tree [] []

/-- `post_order(t)`: all nodes of the tree in postorder (left, right,
self); `None` contributes nothing. -/
def post_order : HTree → List HTree
  | .nil => []
  | .node s n l r => post_order l ++ post_order r ++ [.node s n l r]

/-- Pure rendering of `number_nodes`: the Python original walks
`post_order(tree)` and mutates `ele.number = n`, `n += 1` on each
non-leaf visited, i.e. internal nodes are numbered 0, 1, 2, ... in
postorder (left subtree first, then right subtree, then the node itself).
`number_nodes_aux t n` returns the renumbered tree together with the next
unused number; leaves keep their `number` untouched. -/
def number_nodes_aux : HTree → Nat → HTree × Nat
  | .nil, n => (.nil, n)
  | .node sym num l r, n =>
    if l = .nil ∧ r = .nil then (.node sym num l r, n)
    else
      let pl := number_nodes_aux l n
      let pr := number_nodes_aux r pl.2
      (.node sym (some pr.2) pl.1 pr.1, pr.2 + 1)

/-- `number_nodes(tree)` as a pure function: the tree after the in-place
numbering. -/
def number_nodes (tree : HTree) : HTree :=
  (number_nodes_aux tree 0).1

/-- The accumulated bit string `s` of `generate_compressed`: concatenate
the code of every byte of the input that has one (a byte missing from
`codes` is silently skipped by the `if ele in codes` guard). -/
def gc_bitstring (text : List Nat) (codes : List (Nat × List Nat)) :
    List Nat :=
  text.foldl
    (fun s ele =>
      match dictLookup codes ele with
      | some code => s ++ code
      | none => s)
    []

/-- `generate_compressed(text, codes)`: after accumulating the bit string
`s`, the Python loop runs `byte_list.append(bytearray([bits_to_byte(s[:8])]))`
while `s` is non-empty.  `bytearray.append` requires an int in range(256)
but is handed a `bytearray`, so the FIRST iteration raises
`TypeError: 'bytearray' object cannot be interpreted as an integer`.
Hence: empty bit string, the loop body never runs and the empty bytearray
is returned; non-empty bit string, the call never returns (`none`). -/
def generate_compressed (text : List Nat) (codes : List (Nat × List Nat)) :
    Option (List Nat) :=
  match gc_bitstring text codes with
  | [] => some []
  | _ :: _ => none

/-- How the `bits_to_byte(s[:8])` / `s = s[8:]` loop WOULD pack the bit
string if the `append` slip were fixed to append the int itself: emit one
byte per 8 bits, most significant bit first, the last byte right-padded
with zeros by `bits_to_byte`.  (Modelled from the spec, section 4.7 Bit
Packer, to exhibit the intended value at the failing input of C3; the
`while` structure and `bits_to_byte` are the source's own.) -/
def pack_bits : List Nat → List Nat
  | [] => []
  | s@(_ :: _) => bits_to_byte (s.take 8) :: pack_bits (s.drop 8)
termination_by s => s.length
decreasing_by
  rename_i head tail h
  subst h
  simp [List.length_drop]
  omega

/-- `tree_to_bytes` child encoding: a leaf child contributes
`[0, child.symbol]`, an internal child `[1, child.number]`.  (`nil` is
unreachable: the function is applied to the children of internal nodes of
valid trees, which are present; Python would raise `AttributeError` on
`None`.) -/
def enc_child : HTree → List Nat
  | .nil => []
  | .node sym num l r =>
    if (HTree.node sym num l r).is_leaf then [0, sym.getD 0]
    else [1, num.getD 0]

/-- The four bytes `tree_to_bytes` emits for one internal node: left child
encoding then right child encoding. -/
def enc_node : HTree → List Nat
  | .nil => []
  | .node _ _ l r => enc_child l ++ enc_child r

/-- `tree_to_bytes(tree)`: walk `post_order(tree)`; every non-leaf node
appends its two child encodings to the byte string.  Precondition (from
the docstring): the tree has its nodes numbered. -/
def tree_to_bytes (tree : HTree) : List Nat :=
  (post_order tree).foldl
    (fun b ele => if ele.is_leaf then b else b ++ enc_node ele)
    []

/-- `num_nodes_to_bytes(tree)`: `bytes([tree.number + 1])`.  When the root
has no number (`None`, e.g. a never-numbered tree or a leaf root, which
`number_nodes` leaves unnumbered) the addition raises `TypeError`,
modelled as `none`. -/
def num_nodes_to_bytes (tree : HTree) : Option (List Nat) :=
  match tree with
  | .node _ (some n) _ _ => some [n + 1]
  | _ => none

/-- `size_to_bytes(size)`: `size.to_bytes(4, "little")`, the 4-byte
little-endian encoding.  (Python raises `OverflowError` at `2^32` and
above; the pipeline stores buffer lengths far below that.) -/
def size_to_bytes (size : Nat) : List Nat :=
  [size % 256, size / 256 % 256, size / (256 ^ 2) % 256,
    size / (256 ^ 3) % 256]

/-! ## Decompression functions (`huffman.py`, lines 375-504;
`nodes.py` ReadNode, lines 62-84) -/

/-- `ReadNode(l_type, l_data, r_type, r_data)`: the flat 4-field record of
one internal node as read from the compressed file. -/
structure ReadNode where
  l_type : Nat
  l_data : Nat
  r_type : Nat
  r_data : Nat
deriving DecidableEq, Repr

/-- `bytes_to_nodes(buf)`: one `ReadNode` per 4-byte group.  The Python
loop indexes `buf[i+1] .. buf[i+3]`, so a buffer whose length is not a
multiple of 4 raises `IndexError` on the final group (`none`). -/
def bytes_to_nodes : List Nat → Option (List ReadNode)
  | [] => some []
  | b0 :: b1 :: b2 :: b3 :: rest =>
    (bytes_to_nodes rest).map (fun lst => ⟨b0, b1, b2, b3⟩ :: lst)
  | _ => none

/-- `bytes_to_size(buf)`: `int.from_bytes(buf, "little")`. -/
def bytes_to_size (buf : List Nat) : Nat :=
  buf.foldr (fun b acc => acc * 256 + b) 0

/-- `generate_tree_general(node_lst, root_index)`: rebuild the tree rooted
at record `root_index`; a `type` of 0 makes the corresponding child a leaf
`HuffmanNode(data)`, otherwise the child is rebuilt recursively from
record index `data`.  The rebuilt node is `HuffmanNode()` with both
children set, so its symbol and number are `None`.  The recursion consumes
one unit of fuel per level; `none` models an `IndexError` (bad index) or a
recursion that never terminates (cyclic indices)—for a well-formed
postorder serialization child indices strictly decrease, so fuel
`root_index + 1` always suffices. -/
def generate_tree_general : Nat → List ReadNode → Nat → Option HTree
  | 0, _, _ => none
  | fuel + 1, node_lst, root_index =>
    (node_lst[root_index]?).bind (fun root =>
      (if root.l_type = 0 then
        some (HTree.node (some root.l_data) none .nil .nil)
      else generate_tree_general fuel node_lst root.l_data).bind (fun left =>
      (if root.r_type = 0 then
        some (HTree.node (some root.r_data) none .nil .nil)
      else generate_tree_general fuel node_lst root.r_data).bind (fun right =>
      some (HTree.node none none left right))))

/-- `generate_tree_postorder(node_lst, root_index)`: like the general
variant but, instead of reading stored indices for its own two children,
it takes an internal right child from position `root_index - 1` and, when
both children are internal, the left child from position `root_index - 2`;
the children themselves are rebuilt by `generate_tree_general`.  (Python
subtraction can go negative, where list indexing wraps around from the
end; the inputs considered here keep both positions non-negative, and
`Nat` subtraction is used.) -/
def generate_tree_postorder (fuel : Nat) (node_lst : List ReadNode)
    (root_index : Nat) : Option HTree :=
  match node_lst[root_index]? with
  | none => none
  | some root =>
    if root.l_type = 0 then
      let left := HTree.node (some root.l_data) none .nil .nil
      if root.r_type = 0 then
        some (HTree.node none none left (HTree.node (some root.r_data) none .nil .nil))
      else
        (generate_tree_general fuel node_lst (root_index - 1)).map
          (fun right => HTree.node none none left right)
    else
      if root.r_type = 0 then
        (generate_tree_general fuel node_lst (root_index - 1)).map
          (fun left => HTree.node none none left
            (HTree.node (some root.r_data) none .nil .nil))
      else
        match generate_tree_general fuel node_lst (root_index - 1),
            generate_tree_general fuel node_lst (root_index - 2) with
        | some right, some left => some (HTree.node none none left right)
        | _, _ => none

/-- `generate_uncompressed(tree, text, size)`: the source builds the
reverse dict `dic` of `get_codes(tree)`, concatenates the bits of `text`
into `string_bits`, and then loops while fewer than `size` bytes are
decoded.  The loop body is
`i = 0; bit_code = string_bits[i]; while bit_code not in dic: i += 1;`
`bit_code = string_bits[0 : i]` — the candidate bitstring is always taken
from index 0, never from a cursor — followed by
`uncmopressed_bytes = uncmopressed_bytes + bytes([dic[bit_code]])` and
`s = s[i:]`.  The name `s` is never defined in this function, so the first
completed iteration raises `NameError` (and when no prefix of
`string_bits` is a code the inner `while` never terminates; when
`string_bits` is empty, `string_bits[0]` raises `IndexError`).  With
`size = 0` the loop body never runs and the empty bytes object is
returned; with `size >= 1` the call never returns normally (`none`). -/
def generate_uncompressed (tree : HTree) (text : List Nat) (size : Nat) :
    Option (List Nat) :=
  if size = 0 then some [] else none

/-- The byte-building part of `compress(in_file, out_file)` (file I/O and
the informational `avg_length` print are glue): build the frequency dict,
the Huffman tree and the code dict, number the tree, and concatenate
node-count byte, serialized tree, 4-byte size and packed payload.  `none`
models any exception escaping the pipeline. -/
def compress_pipeline (text : List Nat) : Option (List Nat) :=
  match huffman_tree (make_freq_dict text) with
  | none => none
  | some tree =>
    let codes := get_codes tree
    let tnum := number_nodes tree
    match num_nodes_to_bytes tnum with
    | none => none
    | some hdr =>
      match generate_compressed text codes with
      | none => none
      | some payload =>
        some (hdr ++ tree_to_bytes tnum ++ size_to_bytes text.length ++
          payload)

/-- The byte-consuming part of `uncompress(in_file, out_file)`: first byte
is the node count, then `num_nodes * 4` bytes of records rebuilt by
`bytes_to_nodes` and `generate_tree_general(node_lst, num_nodes - 1)`,
then the 4-byte size, then the packed payload handed to
`generate_uncompressed`. -/
def uncompress_pipeline (file : List Nat) : Option (List Nat) :=
  match file with
  | [] => none
  | num_nodes :: rest =>
    match bytes_to_nodes (rest.take (num_nodes * 4)) with
    | none => none
    | some node_lst =>
      match generate_tree_general (num_nodes + 1) node_lst (num_nodes - 1) with
      | none => none
      | some tree =>
        let size := bytes_to_size ((rest.drop (num_nodes * 4)).take 4)
        let text := (rest.drop (num_nodes * 4)).drop 4
        generate_uncompressed tree text size

/-- `uncompress(compress(B))` at the byte level. -/
def roundtrip (text : List Nat) : Option (List Nat) :=
  (compress_pipeline text).bind uncompress_pipeline

/-! ## C3, C4, C6, C1: concrete evaluations at the failing inputs -/

/-- The code table {0: "0", 1: "10", 2: "11"} of concrete scenario 2. -/
def scenario2_codes : List (Nat × List Nat) := [(0, [0]), (1, [1, 0]), (2, [1, 1])]

/-- C3 (code_bug evaluation): on `bytes([1, 2, 1, 0])` with code table
{0: "0", 1: "10", 2: "11"} the accumulated bit string is the seven bits
1011100, so the packing loop runs — and its first iteration raises
`TypeError`, because `byte_list.append` is handed a `bytearray` instead of
an int (the function returns `none`, not the claimed single byte).  Had
the loop appended the int, the packing (`pack_bits`, 8 bits per byte, MSB
first, zero-padded) would produce exactly the claimed single byte
`0b10111000 = 184`, which is also what the function's own doctest
expects. -/
theorem generate_compressed_crashes :
    gc_bitstring [1, 2, 1, 0] scenario2_codes = [1, 0, 1, 1, 1, 0, 0] ∧
    generate_compressed [1, 2, 1, 0] scenario2_codes = none ∧
    pack_bits (gc_bitstring [1, 2, 1, 0] scenario2_codes) = [0b10111000] := by
  have h1 : gc_bitstring [1, 2, 1, 0] scenario2_codes = [1, 0, 1, 1, 1, 0, 0] :=
    rfl
  refine ⟨h1, rfl, ?_⟩
  rw [h1]
  rw [show pack_bits [1, 0, 1, 1, 1, 0, 0] =
    bits_to_byte (List.take 8 [1, 0, 1, 1, 1, 0, 0]) ::
      pack_bits (List.drop 8 [1, 0, 1, 1, 1, 0, 0]) from by simp [pack_bits]]
  rw [show List.drop 8 [1, 0, 1, 1, 1, 0, 0] = ([] : List Nat) from rfl]
  rw [show pack_bits [] = [] from by simp [pack_bits]]
  decide

/-- The Huffman tree whose code table is {0: "0", 1: "10", 2: "11"}. -/
def scenario2_tree : HTree :=
  .node none none (.node (some 0) none .nil .nil)
    (.node none none (.node (some 1) none .nil .nil)
      (.node (some 2) none .nil .nil))

/-- C4 (code_bug evaluation): decoding `bytes([0b10111000])` (the packed
form of `bytes([1, 2, 1, 0])`) against the scenario-2 tree with expected
size 4 never returns: the decoding loop grows its candidate bitstring from
index 0 (`string_bits[0 : i]`) instead of a cursor, and after the first
symbol matches it executes `s = s[i:]` where `s` was never defined, raising
`NameError`.  The claimed behaviour would be `some [1, 2, 1, 0]`. -/
theorem generate_uncompressed_crashes :
    get_codes scenario2_tree = scenario2_codes ∧
    generate_uncompressed scenario2_tree [0b10111000] 4 = none ∧
    generate_uncompressed scenario2_tree [0b10111000] 4 ≠ some [1, 2, 1, 0] := by
  refine ⟨rfl, rfl, ?_⟩
  decide

/-- A valid Huffman tree whose right subtree has TWO internal nodes: the
shape on which `generate_tree_postorder` goes wrong. -/
def c6_tree : HTree :=
  .node none none
    (.node none none (.node (some 1) none .nil .nil)
      (.node (some 2) none .nil .nil))
    (.node none none
      (.node none none (.node (some 3) none .nil .nil)
        (.node (some 4) none .nil .nil))
      (.node (some 5) none .nil .nil))

/-- The strict-postorder serialization of `c6_tree` after numbering:
exactly what `tree_to_bytes` emits, grouped into records. -/
def c6_node_lst : List ReadNode :=
  [⟨0, 1, 0, 2⟩, ⟨0, 3, 0, 4⟩, ⟨1, 1, 0, 5⟩, ⟨1, 0, 1, 2⟩]

/-- What `generate_tree_general` rebuilds from `c6_node_lst` at root index
3: the original tree (numbers and internal symbols cleared). -/
def c6_general_result : HTree :=
  .node none none
    (.node none none (.node (some 1) none .nil .nil)
      (.node (some 2) none .nil .nil))
    (.node none none
      (.node none none (.node (some 3) none .nil .nil)
        (.node (some 4) none .nil .nil))
      (.node (some 5) none .nil .nil))

/-- What `generate_tree_postorder` rebuilds from the same input: the left
child is wrongly taken from record `root_index - 2 = 2`... which resolves
through record index 1, a node INSIDE the right subtree, so the rebuilt
left child is the {3, 4} subtree instead of the {1, 2} subtree. -/
def c6_postorder_result : HTree :=
  .node none none
    (.node none none (.node (some 3) none .nil .nil)
      (.node (some 4) none .nil .nil))
    (.node none none
      (.node none none (.node (some 3) none .nil .nil)
        (.node (some 4) none .nil .nil))
      (.node (some 5) none .nil .nil))

/-- C6 (code_bug evaluation): `c6_node_lst` is a valid strict-postorder
serialization (it is literally `bytes_to_nodes(tree_to_bytes(...))` of the
numbered `c6_tree`), yet the two reconstruction strategies disagree on it:
`generate_tree_general` returns the original tree while
`generate_tree_postorder` returns a structurally different one, because a
left child that is internal sits at `root_index - 1 - (number of internal
nodes of the right subtree)`, which is `root_index - 2` only when the
right subtree has exactly one internal node. -/
theorem tree_decoders_disagree :
    bytes_to_nodes (tree_to_bytes (number_nodes c6_tree)) = some c6_node_lst ∧
    generate_tree_general 4 c6_node_lst 3 = some c6_general_result ∧
    generate_tree_postorder 4 c6_node_lst 3 = some c6_postorder_result ∧
    pyEq c6_general_result c6_tree = true ∧
    pyEq c6_postorder_result c6_tree = false ∧
    c6_general_result ≠ c6_postorder_result := by
  refine ⟨rfl, rfl, rfl, rfl, rfl, ?_⟩
  decide

/-- C1 (code_bug evaluation): the full compress-then-uncompress pipeline
on the non-empty buffer `bytes([65, 66, 67, 66])` (concrete scenario 1 of
the spec) does not return the buffer — it does not return at all.
`compress` already fails: `generate_compressed` raises `TypeError` at
`byte_list.append(bytearray(...))`; moreover the weight-keyed dict queue
has silently dropped the leaf for symbol 65 (frequency 1, tied with
symbol 67) while building the tree, and `generate_uncompressed` would
raise `NameError` on its undefined `s` even if handed a valid archive. -/
theorem compress_uncompress_roundtrip_fails :
    compress_pipeline [65, 66, 67, 66] = none ∧
    roundtrip [65, 66, 67, 66] = none ∧
    roundtrip [65, 66, 67, 66] ≠ some [65, 66, 67, 66] := by
  refine ⟨rfl, rfl, ?_⟩
  decide

/-! ## Tree optimizer (`huffman.py`, lines 510-583) -/

/-- `max(freq_dict, key=freq_dict.get)`: the first key attaining the
maximal value, in dict iteration order (`max` keeps the incumbent on
ties); `none` when the dict is empty (Python raises `ValueError`, but
`helper1_improve_tree` only calls it on a non-empty dict). -/
def pyMaxKey (d : List (Nat × Nat)) : Option Nat :=
  match d with
  | [] => none
  | (k, v) :: rest =>
    some ((rest.foldl (fun best p => if p.2 > best.2 then p else best)
      (k, v)).1)

/-- The `while len(freq_dict) != 0` loop of `helper1_improve_tree`: pop
the most frequent symbol, append it to the list, delete it from the dict.
Each iteration deletes one key, so fuel equal to the dict size covers
every iteration. -/
def helper1_loop : Nat → List (Nat × Nat) → List Nat
  | 0, _ => []
  | fuel + 1, d =>
    match pyMaxKey d with
    | none => []
    | some symbol =>
      symbol :: helper1_loop fuel (d.eraseP (fun p => p.1 == symbol))

/-- `helper1_improve_tree(freq_dict)`: all symbols in descending frequency
order (ties resolved towards the dict entry seen first). -/
def helper1_improve_tree (freq_dict : List (Nat × Nat)) : List Nat :=
  helper1_loop freq_dict.length freq_dict

/-- One child-assignment step of `helper2_improve_tree`:
`if len(lst) != 0: if child and child.is_leaf(): child.symbol = lst.pop(0)`.
Returns the (possibly relabelled) child and the remaining list. -/
def assign_leaf : List Nat → HTree → HTree × List Nat
  | a :: rest, .node _ num .nil .nil => (.node (some a) num .nil .nil, rest)
  | lst, c => (c, lst)

/-- Node count of a tree; the recursion measure for
`helper2_improve_tree`. -/
def hsize : HTree → Nat
  | .nil => 0
  | .node _ _ l r => hsize l + hsize r + 1

theorem hsize_assign_leaf (lst : List Nat) (c : HTree) :
    hsize (assign_leaf lst c).1 = hsize c := by
  unfold assign_leaf
  split <;> rfl

/-- `helper2_improve_tree(tree, lst)`: return on `None`; otherwise assign
the next symbols of `lst` to the left child and then the right child when
they are leaves, then recurse into the (updated) left child with the
remaining list, then into the right child with what that recursion left
over.  The mutated tree and the remaining list are returned. -/
def helper2_improve_tree : HTree → List Nat → HTree × List Nat
  | .nil, lst => (.nil, lst)
  | .node sym num l r, lst =>
    let pl := assign_leaf lst l
    let pr := assign_leaf pl.2 r
    let ql := helper2_improve_tree pl.1 pr.2
    let qr := helper2_improve_tree pr.1 ql.2
    (.node sym num ql.1 qr.1, qr.2)
termination_by t _ => hsize t
decreasing_by
  · simp [hsize_assign_leaf, hsize]
    omega
  · simp [hsize_assign_leaf, hsize]
    omega

/-- `improve_tree(tree, freq_dict)`: return unchanged on `None` or a leaf
root; otherwise run the assignment pass with the frequency-sorted symbol
list.  (The Python code first copies `freq_dict` into `dict2` because
`helper1_improve_tree` empties its argument; the copy is invisible to the
pure model.)  The mutated tree is returned. -/
def improve_tree (tree : HTree) (freq_dict : List (Nat × Nat)) : HTree :=
  if tree = .nil || tree.is_leaf then tree
  else (helper2_improve_tree tree (helper1_improve_tree freq_dict)).1

/-- Erase exactly the leaf symbols of a tree.  Two trees have the same
`eraseLeafSym` image iff they agree on everything EXCEPT possibly leaf
symbols: same shape (same left/right links and leaf positions), same
`number` attributes, same internal symbols. -/
def eraseLeafSym : HTree → HTree
  | .nil => .nil
  | .node sym num l r =>
    if l = .nil ∧ r = .nil then .node none num .nil .nil
    else .node sym num (eraseLeafSym l) (eraseLeafSym r)

theorem eraseLeafSym_eq_nil (t : HTree) :
    eraseLeafSym t = .nil ↔ t = .nil := by
  cases t with
  | nil => simp [eraseLeafSym]
  | node sym num l r =>
    simp only [eraseLeafSym]
    split <;> simp

theorem eraseLeafSym_assign_leaf (lst : List Nat) (c : HTree) :
    eraseLeafSym (assign_leaf lst c).1 = eraseLeafSym c := by
  unfold assign_leaf
  split
  · simp [eraseLeafSym]
  · rfl

theorem eraseLeafSym_node_congr (s n : Option Nat) (l1 r1 l2 r2 : HTree)
    (hl : eraseLeafSym l1 = eraseLeafSym l2)
    (hr : eraseLeafSym r1 = eraseLeafSym r2) :
    eraseLeafSym (.node s n l1 r1) = eraseLeafSym (.node s n l2 r2) := by
  simp only [eraseLeafSym]
  by_cases h1 : l1 = .nil ∧ r1 = .nil
  · have hl2 : l2 = .nil := by
      rw [← eraseLeafSym_eq_nil, ← hl, eraseLeafSym_eq_nil]
      exact h1.1
    have hr2 : r2 = .nil := by
      rw [← eraseLeafSym_eq_nil, ← hr, eraseLeafSym_eq_nil]
      exact h1.2
    rw [if_pos h1, if_pos ⟨hl2, hr2⟩]
  · have h2 : ¬ (l2 = .nil ∧ r2 = .nil) := by
      intro h2
      exact h1 ⟨by rw [← eraseLeafSym_eq_nil, hl, eraseLeafSym_eq_nil]; exact h2.1,
        by rw [← eraseLeafSym_eq_nil, hr, eraseLeafSym_eq_nil]; exact h2.2⟩
    rw [if_neg h1, if_neg h2, hl, hr]

theorem helper2_improve_tree_shape :
    ∀ (n : Nat) (t : HTree) (lst : List Nat), hsize t ≤ n →
      eraseLeafSym (helper2_improve_tree t lst).1 = eraseLeafSym t := by
  intro n
  induction n with
  | zero =>
    intro t lst ht
    cases t with
    | nil => rw [helper2_improve_tree]
    | node sym num l r => simp [hsize] at ht
  | succ n ih =>
    intro t lst ht
    cases t with
    | nil => rw [helper2_improve_tree]
    | node sym num l r =>
      rw [helper2_improve_tree]
      have hl : hsize l ≤ n := by
        have := ht
        simp [hsize] at this
        omega
      have hr : hsize r ≤ n := by
        have := ht
        simp [hsize] at this
        omega
      have h1 : eraseLeafSym (helper2_improve_tree
          (assign_leaf lst l).1
          (assign_leaf (assign_leaf lst l).2 r).2).1 = eraseLeafSym l := by
        rw [ih _ _ (by rw [hsize_assign_leaf]; exact hl)]
        exact eraseLeafSym_assign_leaf lst l
      have h2 : eraseLeafSym (helper2_improve_tree
          (assign_leaf (assign_leaf lst l).2 r).1
          (helper2_improve_tree (assign_leaf lst l).1
            (assign_leaf (assign_leaf lst l).2 r).2).2).1 =
          eraseLeafSym r := by
        rw [ih _ _ (by rw [hsize_assign_leaf]; exact hr)]
        exact eraseLeafSym_assign_leaf _ r
      exact eraseLeafSym_node_congr sym num _ _ l r h1 h2

/-- C8: `improve_tree` never changes the shape of the tree: erasing the
leaf symbols of the result gives back exactly the leaf-symbol-erased
input, i.e. all left/right child links, the set of leaf positions, all
`number` attributes and all internal-node symbols are untouched; only the
symbol fields of leaves may differ. -/
theorem improve_tree_preserves_shape (tree : HTree)
    (freq_dict : List (Nat × Nat)) :
    eraseLeafSym (improve_tree tree freq_dict) = eraseLeafSym tree := by
  unfold improve_tree
  split
  · rfl
  · exact helper2_improve_tree_shape (hsize tree) tree _ (Nat.le_refl _)

/-! ## C7: prefix-freeness of the generated code table -/

/-- Symbols occur only at leaves: any node that has a child carries symbol
`None`.  Every tree that `huffman_tree` builds satisfies this, because the
seeded leaves have no children and every merged node is created as
`HuffmanNode(None, left, right)`. -/
def leafOnly : HTree → Bool
  | .nil => true
  | .node sym _ l r =>
    (if l = .nil ∧ r = .nil then true else sym == none) &&
      leafOnly l && leafOnly r

/-- Follow a bit path (digit 0 = left child, otherwise right child) down a
tree; the path semantics of the code strings that `get_codes` builds. -/
def subtreeAt : HTree → List Nat → HTree
  | t, [] => t
  | .nil, _ :: _ => .nil
  | .node _ _ l r, d :: p => subtreeAt (if d = 0 then l else r) p

/-- The given node is a leaf carrying symbol `a`. -/
def isLeafSym : HTree → Nat → Bool
  | .node (some b) _ .nil .nil, a => a == b
  | _, _ => false

theorem subtreeAt_nil (p : List Nat) : subtreeAt .nil p = .nil := by
  cases p <;> rfl

theorem subtreeAt_append (t : HTree) (p q : List Nat) :
    subtreeAt t (p ++ q) = subtreeAt (subtreeAt t p) q := by
  induction p generalizing t with
  | nil => cases t <;> rfl
  | cons d p ih =>
    cases t with
    | nil => simp [subtreeAt_nil]
    | node sym num l r =>
      simp only [List.cons_append, subtreeAt]
      exact ih _

/-- Two distinct symbols sitting at leaves of the same tree cannot have
one root path a prefix of the other: a leaf has no descendants. -/
theorem leafSym_no_prefix (t : HTree) (a b : Nat) (pa pb : List Nat)
    (hab : a ≠ b)
    (ha : isLeafSym (subtreeAt t pa) a = true)
    (hb : isLeafSym (subtreeAt t pb) b = true) :
    ¬ ∃ q, pa ++ q = pb := by
  rintro ⟨q, rfl⟩
  rw [subtreeAt_append] at hb
  cases hu : subtreeAt t pa with
  | nil =>
    rw [hu] at ha
    simp [isLeafSym] at ha
  | node sym num l r =>
    rw [hu] at ha hb
    cases sym with
    | none => simp [isLeafSym] at ha
    | some c =>
      cases l with
      | node s2 n2 l2 r2 => simp [isLeafSym] at ha
      | nil =>
        cases r with
        | node s2 n2 l2 r2 => simp [isLeafSym] at ha
        | nil =>
          have hac : a = c := by simpa [isLeafSym] using ha
          cases q with
          | nil =>
            have hbc : b = c := by simpa [subtreeAt, isLeafSym] using hb
            exact hab (hac.trans hbc.symm)
          | cons d q2 =>
            rw [show subtreeAt (HTree.node (some c) num .nil .nil) (d :: q2)
                = subtreeAt (if d = 0 then HTree.nil else HTree.nil) q2
                from rfl] at hb
            rw [show (if d = 0 then HTree.nil else HTree.nil) = HTree.nil
                from by split <;> rfl] at hb
            rw [subtreeAt_nil] at hb
            simp [isLeafSym] at hb

/-- Soundness of the recording step: a binding in `gc_record dic c s` was
either already in `dic`, or it is `s` itself bound to the symbol of the
leaf `c`. -/
theorem gc_record_lookup (dic : List (Nat × List Nat)) (c : HTree)
    (s : List Nat) (a : Nat) (pa : List Nat)
    (hc : leafOnly c = true)
    (h : dictLookup (gc_record dic c s) a = some pa) :
    dictLookup dic a = some pa ∨ (pa = s ∧ isLeafSym c a = true) := by
  cases c with
  | nil => exact Or.inl h
  | node sym num l r =>
    cases sym with
    | none => exact Or.inl h
    | some b =>
      have hlr : l = .nil ∧ r = .nil := by
        by_contra hcon
        rw [leafOnly, if_neg hcon] at hc
        simp at hc
      obtain ⟨hl, hr⟩ := hlr
      subst hl
      subst hr
      unfold gc_record at h
      rw [dictLookup_dictInsert] at h
      by_cases hab2 : a = b
      · rw [if_pos (by simpa using hab2)] at h
        right
        refine ⟨by simpa using h.symm, ?_⟩
        simp [isLeafSym, hab2]
      · rw [if_neg (by simpa using hab2)] at h
        exact Or.inl h

/-- Soundness of the `get_codes` helper: every binding of the dict it
returns was either in the incoming dict, or binds a symbol `a` to
`s ++ q` where `q` is the path of a leaf of `t` carrying `a`. -/
theorem gc_helper_lookup :
    ∀ (t : HTree) (s : List Nat) (dic : List (Nat × List Nat)) (a : Nat)
      (pa : List Nat), leafOnly t = true →
      dictLookup (gc_helper t s dic) a = some pa →
      dictLookup dic a = some pa ∨
        ∃ q, pa = s ++ q ∧ isLeafSym (subtreeAt t q) a = true := by
  intro t
  induction t with
  | nil =>
    intro s dic a pa _ h
    exact Or.inl h
  | node sym num l r ihl ihr =>
    intro s dic a pa ht h
    by_cases hlr : l = .nil ∧ r = .nil
    · rw [gc_helper, if_pos hlr] at h
      exact Or.inl h
    · have hparts : leafOnly l = true ∧ leafOnly r = true := by
        rw [leafOnly] at ht
        simp only [Bool.and_eq_true] at ht
        exact ⟨ht.1.2, ht.2⟩
      rw [gc_helper, if_neg hlr] at h
      rcases ihr (s ++ [1]) _ a pa hparts.2 h with h1 | ⟨q, hq, hleaf⟩
      · rcases gc_record_lookup _ r (s ++ [1]) a pa hparts.2 h1 with
          h2 | ⟨hpa, hleaf⟩
        · rcases ihl (s ++ [0]) _ a pa hparts.1 h2 with h3 | ⟨q, hq, hleaf⟩
          · rcases gc_record_lookup dic l (s ++ [0]) a pa hparts.1 h3 with
              h4 | ⟨hpa, hleaf⟩
            · exact Or.inl h4
            · right
              exact ⟨[0], hpa, by simpa [subtreeAt] using hleaf⟩
          · right
            refine ⟨0 :: q, by simpa [List.append_assoc] using hq, ?_⟩
            simpa [subtreeAt] using hleaf
        · right
          exact ⟨[1], hpa, by simpa [subtreeAt] using hleaf⟩
      · right
        refine ⟨1 :: q, by simpa [List.append_assoc] using hq, ?_⟩
        simpa [subtreeAt] using hleaf

theorem dictInsert_ne_nil {α β : Type} [BEq α] (d : List (α × β)) (k : α)
    (v : β) : dictInsert d k v ≠ [] := by
  unfold dictInsert
  split
  · rename_i hany
    intro hmap
    have hd : d = [] := by simpa using hmap
    subst hd
    simp at hany
  · simp

theorem dictInsert_length {α β : Type} [BEq α] (d : List (α × β)) (k : α)
    (v : β) : (dictInsert d k v).length ≤ d.length + 1 := by
  unfold dictInsert
  split
  · simp
  · simp

/-- A non-empty queue always yields an extraction: the returned entry is
one of the held entries, the remainder is one entry shorter, and every
remaining entry was held before. -/
theorem extractMin_of_ne_nil (items : PriorityQueue) (hne : items ≠ []) :
    ∃ w x rest, PriorityQueue.extractMin items = some ((w, x), rest) ∧
      (w, x) ∈ items ∧ rest.length + 1 = items.length ∧
      ∀ e ∈ rest, e ∈ items := by
  have hmap : items.map Prod.fst ≠ [] := by simpa using hne
  cases hmin : (items.map Prod.fst).min? with
  | none => exact absurd (List.min?_eq_none_iff.mp hmin) hmap
  | some k =>
    have hkmem : k ∈ items.map Prod.fst :=
      List.min?_mem (fun a b => min_choice a b) hmin
    obtain ⟨p, hp, hpk⟩ := List.mem_map.mp hkmem
    have hfs : (items.find? (fun q => q.1 == k)).isSome := by
      rw [List.find?_isSome]
      exact ⟨p, hp, by simp [hpk]⟩
    cases hfind : items.find? (fun q => q.1 == k) with
    | none =>
      rw [hfind] at hfs
      simp at hfs
    | some p0 =>
      have hp0 : p0 ∈ items := List.mem_of_find?_eq_some hfind
      have hp0k : p0.1 = k := by
        have h5 := List.find?_some hfind
        exact beq_iff_eq.mp h5
      refine ⟨k, p0.2, items.eraseP (fun q => q.1 == k), ?_, ?_, ?_, ?_⟩
      · simp only [PriorityQueue.extractMin, hmin, hfind]
      · rw [← hp0k]
        exact hp0
      · have hany : items.any (fun q => q.1 == k) = true :=
          List.any_eq_true.mpr
            ⟨p0, hp0, show (p0.1 == k) = true from beq_iff_eq.mpr hp0k⟩
        have hlen : (items.eraseP (fun q => q.1 == k)).length
            = items.length - 1 := by
          rw [List.length_eraseP, hany]
          simp
        have hpos : 0 < items.length := List.length_pos.mpr hne
        omega
      · intro e he
        exact (List.eraseP_sublist items).subset he

/-- The merge loop returns a tree whenever the fuel covers the queue size
and the queue is non-empty, and the returned tree has symbols only at
leaves when all queued trees do. -/
theorem huffman_loop_some :
    ∀ (fuel : Nat) (items : PriorityQueue), items.length ≤ fuel →
      items ≠ [] → (∀ e ∈ items, leafOnly e.2 = true) →
      ∃ t, huffman_loop fuel items = some t ∧ leafOnly t = true := by
  intro fuel
  induction fuel with
  | zero =>
    intro items hlen hne _
    have := List.length_pos.mpr hne
    omega
  | succ fuel ih =>
    intro items hlen hne hinv
    obtain ⟨w1, x1, p1, hex1, hmem1, hlen1, hsub1⟩ :=
      extractMin_of_ne_nil items hne
    by_cases hp1 : p1 = []
    · refine ⟨x1, ?_, hinv _ hmem1⟩
      rw [huffman_loop, hex1]
      subst hp1
      rfl
    · obtain ⟨w2, x2, p2, hex2, hmem2, hlen2, hsub2⟩ :=
        extractMin_of_ne_nil p1 hp1
      have hlen2' :
          (PriorityQueue.insert p2 (w1 + w2)
            (HTree.node none none x1 x2)).length ≤ fuel := by
        have hin := dictInsert_length p2 (w1 + w2)
          (HTree.node none none x1 x2)
        have : (PriorityQueue.insert p2 (w1 + w2)
            (HTree.node none none x1 x2)).length ≤ p2.length + 1 := hin
        omega
      have hne2 : PriorityQueue.insert p2 (w1 + w2)
          (HTree.node none none x1 x2) ≠ [] := dictInsert_ne_nil _ _ _
      have hinv2 : ∀ e ∈ PriorityQueue.insert p2 (w1 + w2)
          (HTree.node none none x1 x2), leafOnly e.2 = true := by
        intro e he
        rcases mem_dictInsert _ _ _ _ he with h | h
        · exact hinv _ (hsub1 _ (hsub2 _ h))
        · have hx1 := hinv _ hmem1
          have hx2 := hinv _ (hsub1 _ hmem2)
          rw [h]
          show leafOnly (HTree.node none none x1 x2) = true
          rw [leafOnly]
          rw [show (if x1 = HTree.nil ∧ x2 = HTree.nil then true
            else ((none : Option Nat) == none)) = true from by split <;> rfl]
          simp [hx1, hx2]
      obtain ⟨t, hloop, hlt⟩ := ih _ hlen2' hne2 hinv2
      refine ⟨t, ?_, hlt⟩
      have hemp : PriorityQueue.is_empty p1 = false := by
        simpa [PriorityQueue.is_empty] using hp1
      simp only [huffman_loop, hex1, hemp, Bool.false_eq_true, if_false,
        hex2]
      exact hloop

theorem foldl_pq_insert_ne_nil :
    ∀ (freq : List (Nat × Nat)) (p0 : PriorityQueue), p0 ≠ [] →
      freq.foldl
        (fun p kv => PriorityQueue.insert p (kv.2 : Int)
          (HTree.node (some kv.1) none .nil .nil)) p0 ≠ [] := by
  intro freq
  induction freq with
  | nil =>
    intro p0 h
    exact h
  | cons kv freq ih =>
    intro p0 h
    simp only [List.foldl_cons]
    exact ih _ (dictInsert_ne_nil _ _ _)

theorem helper_huffman_tree_ne_nil (freq : List (Nat × Nat))
    (h : freq ≠ []) : helper_huffman_tree freq ≠ [] := by
  cases freq with
  | nil => exact absurd rfl h
  | cons kv freq =>
    unfold helper_huffman_tree
    simp only [List.foldl_cons]
    exact foldl_pq_insert_ne_nil freq _ (dictInsert_ne_nil _ _ _)

theorem foldl_pq_insert_leafOnly :
    ∀ (freq : List (Nat × Nat)) (p0 : PriorityQueue),
      (∀ e ∈ p0, leafOnly e.2 = true) →
      ∀ e ∈ freq.foldl
        (fun p kv => PriorityQueue.insert p (kv.2 : Int)
          (HTree.node (some kv.1) none .nil .nil)) p0,
        leafOnly e.2 = true := by
  intro freq
  induction freq with
  | nil =>
    intro p0 h e he
    exact h e he
  | cons kv freq ih =>
    intro p0 h e he
    simp only [List.foldl_cons] at he
    refine ih _ ?_ e he
    intro e2 he2
    rcases mem_dictInsert _ _ _ _ he2 with h2 | h2
    · exact h e2 h2
    · rw [h2]
      rfl

/-- For a non-empty frequency dict the merge loop terminates within
`helper_huffman_tree` fuel and its result tree has symbols only at
leaves. -/
theorem huffman_tree_some (freq : List (Nat × Nat)) (h : freq ≠ []) :
    ∃ t, huffman_tree freq = some t ∧ leafOnly t = true := by
  unfold huffman_tree
  refine huffman_loop_some _ _ (Nat.le_refl _)
    (helper_huffman_tree_ne_nil freq h) ?_
  intro e he
  refine foldl_pq_insert_leafOnly freq [] ?_ e he
  intro e2 he2
  simp at he2

/-- C7: for every non-empty frequency dictionary, `huffman_tree` returns a
tree and the code table `get_codes` derives from it is prefix-free: codes
of distinct symbols are never one a prefix of the other (stated as: no
list `q` extends `code a` into `code b`; instantiating `a` and `b` both
ways gives both directions of the claim). -/
theorem get_codes_prefix_free (freq_dict : List (Nat × Nat))
    (hne : freq_dict ≠ []) :
    ∃ t, huffman_tree freq_dict = some t ∧
      ∀ a b pa pb, a ≠ b →
        dictLookup (get_codes t) a = some pa →
        dictLookup (get_codes t) b = some pb →
        ¬ ∃ q, pa ++ q = pb := by
  obtain ⟨t, ht, hleaf⟩ := huffman_tree_some freq_dict hne
  refine ⟨t, ht, ?_⟩
  intro a b pa pb hab hla hlb
  unfold get_codes at hla hlb
  rcases gc_helper_lookup t [] [] a pa hleaf hla with h | ⟨qa, hqa, hma⟩
  · simp [dictLookup] at h
  rcases gc_helper_lookup t [] [] b pb hleaf hlb with h | ⟨qb, hqb, hmb⟩
  · simp [dictLookup] at h
  have hpa : pa = qa := by simpa using hqa
  have hpb : pb = qb := by simpa using hqb
  rw [hpa, hpb]
  exact leafSym_no_prefix t a b qa qb hab hma hmb

/-- Witness for C7 at the doctest dictionary {2: 6, 3: 4}: the tree exists
and its codes {3: "0", 2: "1"} are prefix-free. -/
theorem get_codes_prefix_free_witness :
    ∃ t, huffman_tree [(2, 6), (3, 4)] = some t ∧
      ∀ a b pa pb, a ≠ b →
        dictLookup (get_codes t) a = some pa →
        dictLookup (get_codes t) b = some pb →
        ¬ ∃ q, pa ++ q = pb :=
  get_codes_prefix_free [(2, 6), (3, 4)] (by decide)

/-! ## C5: tree serialization round trip -/

/-- A valid Huffman tree (section 3 of the spec): a leaf holds exactly one
symbol, a byte value below 256; an internal node holds no symbol and has
BOTH children present.  `None` is not a valid tree. -/
def valid : HTree → Bool
  | .nil => false
  | .node sym _ l r =>
    if l = .nil ∧ r = .nil then sym.isSome && decide (sym.getD 0 < 256)
    else sym == none && valid l && valid r

/-- Number of internal nodes of a tree. -/
def numInternal : HTree → Nat
  | .nil => 0
  | .node _ _ l r =>
    if l = .nil ∧ r = .nil then 0 else numInternal l + numInternal r + 1

/-- The `number` attribute of the root node. -/
def rootNumber : HTree → Option Nat
  | .nil => none
  | .node _ num _ _ => num

/-- Erase every `number` attribute; `number_nodes` changes nothing else. -/
def eraseNum : HTree → HTree
  | .nil => .nil
  | .node s _ l r => .node s none (eraseNum l) (eraseNum r)

/-- The type byte `tree_to_bytes` emits for a child: 0 for a leaf, 1 for
an internal node. -/
def childType (c : HTree) : Nat :=
  if c.is_leaf then 0 else 1

/-- The data byte `tree_to_bytes` emits for a child: its symbol for a
leaf, its postorder number for an internal node. -/
def childData : HTree → Nat
  | .nil => 0
  | .node sym num l r =>
    if (HTree.node sym num l r).is_leaf then sym.getD 0 else num.getD 0

/-- Proof-level description of the record list a numbered tree serializes
to: one `ReadNode` per internal node, in postorder. -/
def readNodes : HTree → List ReadNode
  | .nil => []
  | .node _ _ l r =>
    if l = .nil ∧ r = .nil then []
    else readNodes l ++ readNodes r ++
      [⟨childType l, childData l, childType r, childData r⟩]

theorem eraseNum_eq_nil (t : HTree) : eraseNum t = .nil ↔ t = .nil := by
  cases t <;> simp [eraseNum]

theorem is_leaf_congr (u v : HTree) (h : eraseNum u = eraseNum v) :
    HTree.is_leaf u = HTree.is_leaf v := by
  cases u with
  | nil =>
    have : v = .nil := by
      rw [← eraseNum_eq_nil, ← h, eraseNum_eq_nil]
    rw [this]
  | node s1 n1 l1 r1 =>
    cases v with
    | nil => simp [eraseNum] at h
    | node s2 n2 l2 r2 =>
      have h9 : s1 = s2 ∧ eraseNum l1 = eraseNum l2 ∧
          eraseNum r1 = eraseNum r2 := by simpa [eraseNum] using h
      obtain ⟨-, hl, hr⟩ := h9
      simp only [HTree.is_leaf]
      rw [show (l1 == HTree.nil) = (l2 == HTree.nil) by
          by_cases h1 : l1 = HTree.nil
          · have h2 : l2 = HTree.nil := by
              rw [← eraseNum_eq_nil, ← hl, eraseNum_eq_nil]
              exact h1
            simp [h1, h2]
          · have h2 : ¬ l2 = HTree.nil := fun hc =>
              h1 (by rw [← eraseNum_eq_nil, hl, eraseNum_eq_nil]; exact hc)
            simp [h1, h2],
        show (r1 == HTree.nil) = (r2 == HTree.nil) by
          by_cases h1 : r1 = HTree.nil
          · have h2 : r2 = HTree.nil := by
              rw [← eraseNum_eq_nil, ← hr, eraseNum_eq_nil]
              exact h1
            simp [h1, h2]
          · have h2 : ¬ r2 = HTree.nil := fun hc =>
              h1 (by rw [← eraseNum_eq_nil, hr, eraseNum_eq_nil]; exact hc)
            simp [h1, h2]]

theorem numInternal_congr (u v : HTree) (h : eraseNum u = eraseNum v) :
    numInternal u = numInternal v := by
  induction u generalizing v with
  | nil =>
    have : v = .nil := by rw [← eraseNum_eq_nil, ← h, eraseNum_eq_nil]
    rw [this]
  | node s1 n1 l1 r1 ihl ihr =>
    cases v with
    | nil => simp [eraseNum] at h
    | node s2 n2 l2 r2 =>
      have h9 : s1 = s2 ∧ eraseNum l1 = eraseNum l2 ∧
          eraseNum r1 = eraseNum r2 := by simpa [eraseNum] using h
      obtain ⟨-, hl, hr⟩ := h9
      have hcond : (l1 = HTree.nil ∧ r1 = HTree.nil) ↔
          (l2 = HTree.nil ∧ r2 = HTree.nil) := by
        constructor
        · rintro ⟨h1, h2⟩
          exact ⟨by rw [← eraseNum_eq_nil, ← hl, eraseNum_eq_nil]; exact h1,
            by rw [← eraseNum_eq_nil, ← hr, eraseNum_eq_nil]; exact h2⟩
        · rintro ⟨h1, h2⟩
          exact ⟨by rw [← eraseNum_eq_nil, hl, eraseNum_eq_nil]; exact h1,
            by rw [← eraseNum_eq_nil, hr, eraseNum_eq_nil]; exact h2⟩
      by_cases hc : l1 = HTree.nil ∧ r1 = HTree.nil
      · rw [numInternal, numInternal, if_pos hc, if_pos (hcond.mp hc)]
      · rw [numInternal, numInternal, if_neg hc,
          if_neg (fun h2 => hc (hcond.mpr h2)), ihl l2 hl, ihr r2 hr]

theorem valid_congr (u v : HTree) (h : eraseNum u = eraseNum v) :
    valid u = valid v := by
  induction u generalizing v with
  | nil =>
    have : v = .nil := by rw [← eraseNum_eq_nil, ← h, eraseNum_eq_nil]
    rw [this]
  | node s1 n1 l1 r1 ihl ihr =>
    cases v with
    | nil => simp [eraseNum] at h
    | node s2 n2 l2 r2 =>
      have h9 : s1 = s2 ∧ eraseNum l1 = eraseNum l2 ∧
          eraseNum r1 = eraseNum r2 := by simpa [eraseNum] using h
      obtain ⟨hs, hl, hr⟩ := h9
      have hcond : (l1 = HTree.nil ∧ r1 = HTree.nil) ↔
          (l2 = HTree.nil ∧ r2 = HTree.nil) := by
        constructor
        · rintro ⟨h1, h2⟩
          exact ⟨by rw [← eraseNum_eq_nil, ← hl, eraseNum_eq_nil]; exact h1,
            by rw [← eraseNum_eq_nil, ← hr, eraseNum_eq_nil]; exact h2⟩
        · rintro ⟨h1, h2⟩
          exact ⟨by rw [← eraseNum_eq_nil, hl, eraseNum_eq_nil]; exact h1,
            by rw [← eraseNum_eq_nil, hr, eraseNum_eq_nil]; exact h2⟩
      by_cases hc : l1 = HTree.nil ∧ r1 = HTree.nil
      · rw [valid, valid, if_pos hc, if_pos (hcond.mp hc), hs]
      · rw [valid, valid, if_neg hc, if_neg (fun h2 => hc (hcond.mpr h2)),
          hs, ihl l2 hl, ihr r2 hr]

/-- `number_nodes_aux` numbers the internal nodes in postorder starting at
`n`: it allocates exactly `numInternal t` numbers, leaves everything but
the `number` attributes unchanged, and gives the root (when internal) the
last allocated number. -/
theorem number_nodes_aux_spec (t : HTree) :
    ∀ n : Nat,
      (number_nodes_aux t n).2 = n + numInternal t ∧
      eraseNum (number_nodes_aux t n).1 = eraseNum t ∧
      (HTree.is_leaf t = false →
        rootNumber (number_nodes_aux t n).1 = some (n + numInternal t - 1)) := by
  induction t with
  | nil =>
    intro n
    refine ⟨by simp [number_nodes_aux, numInternal], rfl, ?_⟩
    intro h
    simp [HTree.is_leaf] at h
  | node sym num l r ihl ihr =>
    intro n
    by_cases hc : l = .nil ∧ r = .nil
    · refine ⟨?_, ?_, ?_⟩
      · rw [number_nodes_aux, if_pos hc, numInternal, if_pos hc]
        rfl
      · rw [number_nodes_aux, if_pos hc]
      · intro h
        rw [HTree.is_leaf] at h
        simp [hc.1, hc.2] at h
    · have el := (ihl n).1
      have el2 := (ihl n).2.1
      have er := (ihr (number_nodes_aux l n).2).1
      have er2 := (ihr (number_nodes_aux l n).2).2.1
      refine ⟨?_, ?_, ?_⟩
      · simp only [number_nodes_aux, if_neg hc]
        rw [numInternal, if_neg hc]
        omega
      · simp only [number_nodes_aux, if_neg hc, eraseNum, el2, er2]
      · intro _
        simp only [number_nodes_aux, if_neg hc, rootNumber]
        rw [numInternal, if_neg hc, er, el]
        congr 1
        omega

theorem foldl_emit (l : List HTree) :
    ∀ acc : List Nat,
      l.foldl (fun b ele => if ele.is_leaf then b else b ++ enc_node ele) acc
        = acc ++
          l.foldl (fun b ele => if ele.is_leaf then b else b ++ enc_node ele)
            [] := by
  induction l with
  | nil =>
    intro acc
    simp
  | cons x l ih =>
    intro acc
    simp only [List.foldl_cons]
    by_cases hx : HTree.is_leaf x
    · rw [if_pos hx, if_pos hx]
      exact ih acc
    · rw [if_neg hx, if_neg hx]
      rw [ih (acc ++ enc_node x), ih ([] ++ enc_node x)]
      simp [List.append_assoc]

theorem tree_to_bytes_leaf (sym num : Option Nat) :
    tree_to_bytes (.node sym num .nil .nil) = [] := rfl

theorem tree_to_bytes_internal (sym num : Option Nat) (l r : HTree)
    (h : HTree.is_leaf (.node sym num l r) = false) :
    tree_to_bytes (.node sym num l r) =
      tree_to_bytes l ++ tree_to_bytes r ++
        enc_node (.node sym num l r) := by
  unfold tree_to_bytes
  rw [post_order, List.foldl_append, List.foldl_append, List.foldl_cons,
    List.foldl_nil]
  rw [if_neg (by simp [h])]
  rw [foldl_emit (post_order r)]

theorem enc_node_valid (sym num : Option Nat) (l r : HTree)
    (hl : l ≠ .nil) (hr : r ≠ .nil) :
    enc_node (.node sym num l r) =
      [childType l, childData l, childType r, childData r] := by
  cases l with
  | nil => exact absurd rfl hl
  | node s1 n1 l1 r1 =>
    cases r with
    | nil => exact absurd rfl hr
    | node s2 n2 l2 r2 =>
      by_cases h1 : HTree.is_leaf (HTree.node s1 n1 l1 r1) <;>
        by_cases h2 : HTree.is_leaf (HTree.node s2 n2 l2 r2) <;>
        simp [enc_node, enc_child, childType, childData, h1, h2]

theorem bytes_to_nodes_cons4 (a b c d : Nat) (rest : List Nat) :
    bytes_to_nodes (a :: b :: c :: d :: rest) =
      (bytes_to_nodes rest).map (fun lst => ⟨a, b, c, d⟩ :: lst) := rfl

/-- `bytes_to_nodes` recovers exactly the postorder internal-node records
from the bytes `tree_to_bytes` emits for a valid tree (with anything
appended after them). -/
theorem bytes_to_nodes_tree :
    ∀ (t : HTree), valid t = true →
      ∀ (rest : List Nat) (restNodes : List ReadNode),
        bytes_to_nodes rest = some restNodes →
        bytes_to_nodes (tree_to_bytes t ++ rest) =
          some (readNodes t ++ restNodes) := by
  intro t
  induction t with
  | nil =>
    intro hv
    simp [valid] at hv
  | node sym num l r ihl ihr =>
    intro hv rest restNodes hrest
    by_cases hc : l = .nil ∧ r = .nil
    · obtain ⟨hcl, hcr⟩ := hc
      subst hcl
      subst hcr
      rw [tree_to_bytes_leaf, readNodes, if_pos ⟨rfl, rfl⟩]
      simpa using hrest
    · have hval : valid l = true ∧ valid r = true := by
        rw [valid, if_neg hc] at hv
        simp only [Bool.and_eq_true] at hv
        exact ⟨hv.1.2, hv.2⟩
      have hlnil : l ≠ .nil := by
        intro h
        rw [h] at hval
        simp [valid] at hval
      have hrnil : r ≠ .nil := by
        intro h
        rw [h] at hval
        simp [valid] at hval
      have hleaf : HTree.is_leaf (HTree.node sym num l r) = false := by
        rw [HTree.is_leaf]
        simp [hlnil, hrnil]
      have hbase : bytes_to_nodes
          ([childType l, childData l, childType r, childData r] ++ rest) =
          some ((⟨childType l, childData l, childType r, childData r⟩ :
            ReadNode) :: restNodes) := by
        rw [show ([childType l, childData l, childType r, childData r] ++
            rest) = childType l :: childData l :: childType r ::
            childData r :: rest from rfl]
        rw [bytes_to_nodes_cons4, hrest]
        rfl
      have hstepr := ihr hval.2 _ _ hbase
      have hstepl := ihl hval.1 _ _ hstepr
      rw [tree_to_bytes_internal sym num l r hleaf,
        enc_node_valid sym num l r hlnil hrnil, readNodes, if_neg hc]
      rw [List.append_assoc, List.append_assoc]
      rw [hstepl]
      simp [List.append_assoc]

theorem generate_tree_general_mono :
    ∀ (f1 : Nat) (lst : List ReadNode) (ri : Nat) (t : HTree),
      generate_tree_general f1 lst ri = some t →
      ∀ f2, f1 ≤ f2 → generate_tree_general f2 lst ri = some t := by
  intro f1
  induction f1 with
  | zero =>
    intro lst ri t h
    exact absurd h (by simp [generate_tree_general])
  | succ f1 ih =>
    intro lst ri t h f2 hle
    cases f2 with
    | zero => omega
    | succ f2 =>
      have hf : f1 ≤ f2 := by omega
      rw [generate_tree_general] at h ⊢
      cases hroot : lst[ri]? with
      | none =>
        rw [hroot] at h
        simp at h
      | some root =>
        rw [hroot] at h
        simp only [Option.some_bind] at h ⊢
        by_cases hl : root.l_type = 0
        · rw [if_pos hl] at h ⊢
          simp only [Option.some_bind] at h ⊢
          by_cases hr : root.r_type = 0
          · rw [if_pos hr] at h ⊢
            exact h
          · rw [if_neg hr] at h ⊢
            cases hrec : generate_tree_general f1 lst root.r_data with
            | none =>
              rw [hrec] at h
              simp at h
            | some rr =>
              rw [hrec] at h
              rw [ih _ _ _ hrec f2 hf]
              exact h
        · rw [if_neg hl] at h ⊢
          cases hrecl : generate_tree_general f1 lst root.l_data with
          | none =>
            rw [hrecl] at h
            simp at h
          | some ll =>
            rw [hrecl] at h
            rw [ih _ _ _ hrecl f2 hf]
            simp only [Option.some_bind] at h ⊢
            by_cases hr : root.r_type = 0
            · rw [if_pos hr] at h ⊢
              exact h
            · rw [if_neg hr] at h ⊢
              cases hrecr : generate_tree_general f1 lst root.r_data with
              | none =>
                rw [hrecr] at h
                simp at h
              | some rr =>
                rw [hrecr] at h
                rw [ih _ _ _ hrecr f2 hf]
                exact h

theorem readNodes_length (t : HTree) :
    (readNodes t).length = numInternal t := by
  induction t with
  | nil => rfl
  | node sym num l r ihl ihr =>
    by_cases hc : l = .nil ∧ r = .nil
    · rw [readNodes, if_pos hc, numInternal, if_pos hc]
      rfl
    · rw [readNodes, if_neg hc, numInternal, if_neg hc]
      simp [ihl, ihr]
      omega

theorem getElem?_app2_left {α : Type} (A B : List α) (x : α) (i : Nat)
    (h : i < A.length) : (A ++ B ++ [x])[i]? = A[i]? := by
  rw [List.append_assoc, List.getElem?_append_left h]

theorem getElem?_app2_mid {α : Type} (A B : List α) (x : α) (i : Nat)
    (h : i < B.length) : (A ++ B ++ [x])[A.length + i]? = B[i]? := by
  rw [List.append_assoc, List.getElem?_append_right (by omega),
    show A.length + i - A.length = i from by omega,
    List.getElem?_append_left h]

theorem getElem?_app2_last {α : Type} (A B : List α) (x : α) :
    (A ++ B ++ [x])[A.length + B.length]? = some x := by
  rw [List.append_assoc, List.getElem?_append_right (by omega),
    show A.length + B.length - A.length = B.length from by omega,
    List.getElem?_concat_length]

/-- Core of the serialization round trip: if the record list agrees, on
the index window `[n, n + numInternal t)`, with the postorder records of
the subtree numbered from `n`, then `generate_tree_general` started at the
root record (index `n + numInternal t - 1`, the number of the subtree
root) rebuilds exactly the subtree with its numbers erased. -/
theorem gtg_reconstructs :
    ∀ (t : HTree), valid t = true → HTree.is_leaf t = false →
      ∀ (n : Nat) (lst : List ReadNode),
      (∀ i, i < numInternal t →
        lst[n + i]? = (readNodes (number_nodes_aux t n).1)[i]?) →
      generate_tree_general (n + numInternal t) lst
        (n + numInternal t - 1) = some (eraseNum t) := by
  intro t
  induction t with
  | nil =>
    intro hv
    simp [valid] at hv
  | node sym num l r ihl ihr =>
    intro hv hleaf n lst hlst
    have hlr : ¬ (l = .nil ∧ r = .nil) := by
      intro hcc
      rw [HTree.is_leaf] at hleaf
      simp [hcc.1, hcc.2] at hleaf
    have hsym : sym = none := by
      rw [valid, if_neg hlr] at hv
      simp only [Bool.and_eq_true, beq_iff_eq] at hv
      exact hv.1.1
    have hval : valid l = true ∧ valid r = true := by
      rw [valid, if_neg hlr] at hv
      simp only [Bool.and_eq_true] at hv
      exact ⟨hv.1.2, hv.2⟩
    have hlnil : l ≠ .nil := by
      intro h
      rw [h] at hval
      simp [valid] at hval
    have hrnil : r ≠ .nil := by
      intro h
      rw [h] at hval
      simp [valid] at hval
    have hsl := number_nodes_aux_spec l n
    have hsr := number_nodes_aux_spec r (number_nodes_aux l n).2
    have hK : numInternal (HTree.node sym num l r)
        = numInternal l + numInternal r + 1 := by
      rw [numInternal, if_neg hlr]
    have haux : (number_nodes_aux (HTree.node sym num l r) n).1 =
        HTree.node sym
          (some ((number_nodes_aux r (number_nodes_aux l n).2).2))
          (number_nodes_aux l n).1
          (number_nodes_aux r (number_nodes_aux l n).2).1 := by
      simp only [number_nodes_aux, if_neg hlr]
    have hlnil1 : (number_nodes_aux l n).1 ≠ .nil := by
      intro h
      refine hlnil ?_
      rw [← eraseNum_eq_nil, ← hsl.2.1, h]
      rfl
    have hrnil1 : (number_nodes_aux r (number_nodes_aux l n).2).1 ≠ .nil := by
      intro h
      refine hrnil ?_
      rw [← eraseNum_eq_nil, ← hsr.2.1, h]
      rfl
    have hleafl : HTree.is_leaf (number_nodes_aux l n).1 = HTree.is_leaf l :=
      is_leaf_congr _ _ hsl.2.1
    have hleafr : HTree.is_leaf
        (number_nodes_aux r (number_nodes_aux l n).2).1 = HTree.is_leaf r :=
      is_leaf_congr _ _ hsr.2.1
    have hRN : readNodes (number_nodes_aux (HTree.node sym num l r) n).1 =
        readNodes (number_nodes_aux l n).1 ++
        readNodes (number_nodes_aux r (number_nodes_aux l n).2).1 ++
        [⟨childType (number_nodes_aux l n).1,
          childData (number_nodes_aux l n).1,
          childType (number_nodes_aux r (number_nodes_aux l n).2).1,
          childData (number_nodes_aux r (number_nodes_aux l n).2).1⟩] := by
      rw [haux, readNodes, if_neg (fun hcc => hlnil1 hcc.1)]
    have hlenl : (readNodes (number_nodes_aux l n).1).length
        = numInternal l := by
      rw [readNodes_length]
      exact numInternal_congr _ _ hsl.2.1
    have hlenr : (readNodes
        (number_nodes_aux r (number_nodes_aux l n).2).1).length
        = numInternal r := by
      rw [readNodes_length]
      exact numInternal_congr _ _ hsr.2.1
    have hroot : lst[n + numInternal l + numInternal r]? =
        some ⟨childType (number_nodes_aux l n).1,
          childData (number_nodes_aux l n).1,
          childType (number_nodes_aux r (number_nodes_aux l n).2).1,
          childData (number_nodes_aux r (number_nodes_aux l n).2).1⟩ := by
      have h0 := hlst (numInternal l + numInternal r) (by rw [hK]; omega)
      rw [hRN] at h0
      rw [show n + numInternal l + numInternal r
        = n + (numInternal l + numInternal r) from by omega, h0,
        ← hlenl, ← hlenr]
      exact getElem?_app2_last _ _ _
    -- the left branch of the decoder
    have hLeft : (if childType (number_nodes_aux l n).1 = 0 then
          some (HTree.node (some (childData (number_nodes_aux l n).1))
            none .nil .nil)
        else generate_tree_general (n + numInternal l + numInternal r) lst
          (childData (number_nodes_aux l n).1)) = some (eraseNum l) := by
      by_cases hll : HTree.is_leaf l
      · -- left child is a leaf: record type 0, data is its symbol
        have hct : childType (number_nodes_aux l n).1 = 0 := by
          rw [childType, hleafl, hll]
          rfl
        rw [if_pos hct]
        -- a valid leaf is a node with a symbol and two nil children
        cases hLshape : l with
        | nil => exact absurd hLshape hlnil
        | node s1 n1 l1 r1 =>
          rw [hLshape] at hll
          rw [HTree.is_leaf] at hll
          simp only [Bool.and_eq_true, beq_iff_eq] at hll
          obtain ⟨h1, h2⟩ := hll
          subst h1
          subst h2
          have hvl := hval.1
          rw [hLshape, valid, if_pos ⟨rfl, rfl⟩] at hvl
          simp only [Bool.and_eq_true, Option.isSome_iff_exists] at hvl
          obtain ⟨⟨s, hs⟩, -⟩ := hvl
          subst hs
          rw [show (number_nodes_aux (HTree.node (some s) n1 .nil .nil) n).1
            = HTree.node (some s) n1 .nil .nil from by
              rw [number_nodes_aux, if_pos ⟨rfl, rfl⟩]]
          rfl
      · -- left child is internal: record type 1, data is its root number
        have hllf : HTree.is_leaf l = false := Bool.eq_false_iff.mpr hll
        have hct : childType (number_nodes_aux l n).1 = 1 := by
          rw [childType, hleafl, hllf]
          rfl
        rw [if_neg (by rw [hct]; omega)]
        have hrootl := hsl.2.2 hllf
        have hcd : childData (number_nodes_aux l n).1
            = n + numInternal l - 1 := by
          cases hp : (number_nodes_aux l n).1 with
          | nil => exact absurd hp hlnil1
          | node ps pn pll prr =>
            rw [childData, if_neg ?_]
            · rw [hp] at hrootl
              rw [rootNumber] at hrootl
              rw [hrootl]
              rfl
            · rw [← hp, hleafl, hllf]
              simp
        rw [hcd]
        have hsub : ∀ i, i < numInternal l →
            lst[n + i]? = (readNodes (number_nodes_aux l n).1)[i]? := by
          intro i hi
          have h0 := hlst i (by rw [hK]; omega)
          rw [hRN] at h0
          rw [h0]
          exact getElem?_app2_left _ _ _ i (by rw [hlenl]; exact hi)
        have hrec := ihl hval.1 hllf n lst hsub
        exact generate_tree_general_mono _ _ _ _ hrec _ (by omega)
    -- the right branch of the decoder
    have hRight : (if childType
          (number_nodes_aux r (number_nodes_aux l n).2).1 = 0 then
          some (HTree.node (some (childData
            (number_nodes_aux r (number_nodes_aux l n).2).1)) none .nil .nil)
        else generate_tree_general (n + numInternal l + numInternal r) lst
          (childData (number_nodes_aux r (number_nodes_aux l n).2).1)) =
        some (eraseNum r) := by
      by_cases hrr : HTree.is_leaf r
      · have hct : childType
            (number_nodes_aux r (number_nodes_aux l n).2).1 = 0 := by
          rw [childType, hleafr, hrr]
          rfl
        rw [if_pos hct]
        cases hRshape : r with
        | nil => exact absurd hRshape hrnil
        | node s1 n1 l1 r1 =>
          rw [hRshape] at hrr
          rw [HTree.is_leaf] at hrr
          simp only [Bool.and_eq_true, beq_iff_eq] at hrr
          obtain ⟨h1, h2⟩ := hrr
          subst h1
          subst h2
          have hvr := hval.2
          rw [hRshape, valid, if_pos ⟨rfl, rfl⟩] at hvr
          simp only [Bool.and_eq_true, Option.isSome_iff_exists] at hvr
          obtain ⟨⟨s, hs⟩, -⟩ := hvr
          subst hs
          rw [show (number_nodes_aux (HTree.node (some s) n1 .nil .nil)
            (number_nodes_aux l n).2).1
            = HTree.node (some s) n1 .nil .nil from by
              rw [number_nodes_aux, if_pos ⟨rfl, rfl⟩]]
          rfl
      · have hrrf : HTree.is_leaf r = false := Bool.eq_false_iff.mpr hrr
        have hct : childType
            (number_nodes_aux r (number_nodes_aux l n).2).1 = 1 := by
          rw [childType, hleafr, hrrf]
          rfl
        rw [if_neg (by rw [hct]; omega)]
        have hrootr := hsr.2.2 hrrf
        have hcd : childData (number_nodes_aux r (number_nodes_aux l n).2).1
            = n + numInternal l + numInternal r - 1 := by
          cases hp : (number_nodes_aux r (number_nodes_aux l n).2).1 with
          | nil => exact absurd hp hrnil1
          | node ps pn pll prr =>
            rw [childData, if_neg ?_]
            · rw [hp] at hrootr
              rw [rootNumber] at hrootr
              rw [hrootr, hsl.1]
              rfl
            · rw [← hp, hleafr, hrrf]
              simp
        rw [hcd]
        have hsub : ∀ i, i < numInternal r →
            lst[(number_nodes_aux l n).2 + i]? =
              (readNodes
                (number_nodes_aux r (number_nodes_aux l n).2).1)[i]? := by
          intro i hi
          have h0 := hlst (numInternal l + i) (by rw [hK]; omega)
          rw [hRN] at h0
          have hmid := getElem?_app2_mid
            (readNodes (number_nodes_aux l n).1)
            (readNodes (number_nodes_aux r (number_nodes_aux l n).2).1)
            (⟨childType (number_nodes_aux l n).1,
              childData (number_nodes_aux l n).1,
              childType (number_nodes_aux r (number_nodes_aux l n).2).1,
              childData (number_nodes_aux r (number_nodes_aux l n).2).1⟩ :
              ReadNode)
            i (by rw [hlenr]; exact hi)
          rw [hlenl] at hmid
          rw [show (number_nodes_aux l n).2 + i = n + (numInternal l + i)
            from by rw [hsl.1]; omega, h0]
          exact hmid
        have hrec := ihr hval.2 hrrf (number_nodes_aux l n).2 lst hsub
        rw [hsl.1] at hrec
        exact generate_tree_general_mono _ _ _ _ hrec _ (by omega)
    -- assemble
    rw [show n + numInternal (HTree.node sym num l r) - 1
      = n + numInternal l + numInternal r from by rw [hK]; omega]
    rw [show n + numInternal (HTree.node sym num l r)
      = (n + numInternal l + numInternal r) + 1 from by rw [hK]; omega]
    rw [generate_tree_general, hroot]
    simp only [Option.some_bind]
    rw [hLeft]
    simp only [Option.some_bind]
    rw [hRight]
    simp only [Option.some_bind]
    rw [eraseNum, hsym]

theorem pyEq_eraseNum (t : HTree) : pyEq (eraseNum t) t = true := by
  induction t with
  | nil => rfl
  | node sym num l r ihl ihr => simp [pyEq, eraseNum, ihl, ihr]

/-- C5: serializing then deserializing reconstructs the tree.  For every
valid Huffman tree `t` with `K = numInternal t ≥ 1` internal nodes (at
most 256, so that every stored postorder number fits in a byte),
numbering the tree and then running
`generate_tree_general (bytes_to_nodes (tree_to_bytes t)) (K - 1)`
succeeds — fuel `K` covers the recursion, whose indices strictly
decrease — and returns a tree structurally equal to `t`: it IS `t` with
all `number` attributes erased, and Python `==` (`pyEq`), which ignores
numbers, accepts it, so shape and symbol-at-leaf assignments agree. -/
theorem tree_serialization_roundtrip (t : HTree) (hv : valid t = true)
    (hK : 1 ≤ numInternal t) (hbound : numInternal t ≤ 256) :
    ∃ lst, bytes_to_nodes (tree_to_bytes (number_nodes t)) = some lst ∧
      generate_tree_general (numInternal t) lst (numInternal t - 1)
        = some (eraseNum t) ∧
      pyEq (eraseNum t) t = true := by
  have hleaf : HTree.is_leaf t = false := by
    cases t with
    | nil => simp [valid] at hv
    | node sym num l r =>
      by_cases hc : l = HTree.nil ∧ r = HTree.nil
      · rw [numInternal, if_pos hc] at hK
        omega
      · by_cases hl : l = HTree.nil
        · have hr : r ≠ HTree.nil := fun h => hc ⟨hl, h⟩
          simp [HTree.is_leaf, hl, hr]
        · simp [HTree.is_leaf, hl]
  have hvn : valid (number_nodes t) = true := by
    unfold number_nodes
    rw [valid_congr _ _ (number_nodes_aux_spec t 0).2.1]
    exact hv
  have hb : bytes_to_nodes (tree_to_bytes (number_nodes t))
      = some (readNodes (number_nodes t)) := by
    have h0 := bytes_to_nodes_tree (number_nodes t) hvn [] [] rfl
    simpa using h0
  refine ⟨readNodes (number_nodes t), hb, ?_, pyEq_eraseNum t⟩
  have hrec := gtg_reconstructs t hv hleaf 0 (readNodes (number_nodes t))
    (by intro i hi; rw [Nat.zero_add]; rfl)
  simpa using hrec

/-- Witness for C5 at the doctest tree `HuffmanNode(None, HuffmanNode(3),
HuffmanNode(2))`: one internal node, serialized bytes `[0, 3, 0, 2]`,
rebuilt at root index 0. -/
theorem tree_serialization_roundtrip_witness :
    ∃ lst, bytes_to_nodes (tree_to_bytes (number_nodes
      (HTree.node none none (HTree.node (some 3) none .nil .nil)
        (HTree.node (some 2) none .nil .nil)))) = some lst ∧
      generate_tree_general
        (numInternal (HTree.node none none
          (HTree.node (some 3) none .nil .nil)
          (HTree.node (some 2) none .nil .nil)))
        lst
        (numInternal (HTree.node none none
          (HTree.node (some 3) none .nil .nil)
          (HTree.node (some 2) none .nil .nil)) - 1)
        = some (eraseNum (HTree.node none none
          (HTree.node (some 3) none .nil .nil)
          (HTree.node (some 2) none .nil .nil))) ∧
      pyEq (eraseNum (HTree.node none none
        (HTree.node (some 3) none .nil .nil)
        (HTree.node (some 2) none .nil .nil)))
        (HTree.node none none (HTree.node (some 3) none .nil .nil)
          (HTree.node (some 2) none .nil .nil)) = true :=
  tree_serialization_roundtrip _ (by decide) (by decide) (by decide)
